import Mathlib

/-!
# BattleSim.io2 — verification of spec claims against the engine source

Shallow embedding of the simulation engine of this repository
(`src/services/simulation.ts`, `src/unnamed/part_009`, the ECS systems under
`src/services/ecs/systems/`, and `src/services/pathfinding.ts`).

Conventions of the embedding:
* JavaScript floating-point numbers are modelled as exact rationals (`ℚ`).
  Decimal literals of the source are written as fractions
  (`0.95 = 19/20`, `0.15 = 3/20`, `0.8 = 4/5`, `0.05 = 1/20`).
* `Math.sqrt` has no exact rational counterpart; wherever the source computes
  a magnitude `d = Math.sqrt(e)`, the embedded function takes `d` as an extra
  argument and the theorems carry the defining hypotheses `d * d = e`,
  `0 ≤ d`.  Witnesses instantiate them with Pythagorean inputs where the
  square root is rational.
* JS `Map` iteration order is insertion order; stores are `List`s.
-/

/-! ## Shared data: 2-D vectors and world constants (`src/constants.ts`) -/

/-- A 2-D vector of exact rationals, standing for the `{x, y}` records of the
source (`Vector2`). -/
structure Vec2 where
  x : ℚ
  y : ℚ
deriving DecidableEq, Repr

/-- `WORLD_WIDTH` from `constants.ts`. -/
def WORLD_WIDTH : ℚ := 2000

/-- `WORLD_HEIGHT` from `constants.ts`. -/
def WORLD_HEIGHT : ℚ := 1500

/-! ## Combat damage resolution

From `CombatSystem.update` (src/services/ecs/systems/CombatSystem.ts,
lines 100–124) and the same computation in `SimulationEngine.update`
(src/unnamed/part_009, lines 406–434).  `dmg` is the attacker's damage after
any cavalry charge / momentum bonus (the claims quantify over it), `defense`
the target's flat defense. -/

/-- Result of one resolved attack on a target. -/
structure AttackOutcome where
  targetHealth : ℚ
  targetMorale : ℚ
  targetFleeing : Bool
  attackerCooldown : ℚ
deriving DecidableEq, Repr

/-- One attack resolution:
`effDmg = Math.max(1, dmg - defense)`; `tHealth.current -= effDmg`;
`combat.cooldownTimer = combat.attackCooldown`; `tState.morale -= effDmg * 0.8`;
morale `≤ 0` while not already fleeing forces `FLEEING`. -/
def resolveAttack (dmg defense health morale : ℚ) (fleeing : Bool)
    (attackCooldown : ℚ) : AttackOutcome :=
  let effDmg := max 1 (dmg - defense)
  let morale' := morale - effDmg * (4/5)
  { targetHealth := health - effDmg
    targetMorale := morale'
    targetFleeing := if morale' ≤ 0 ∧ fleeing = false then true else fleeing
    attackerCooldown := attackCooldown }

/-! ## Attack cooldown timer

From `CombatSystem.update` line 42 / `SimulationEngine.update`
(src/unnamed/part_009, lines 397–399): `if (unit.cooldownTimer > 0)
unit.cooldownTimer--;`.  After a successful attack the timer is reset to the
class's `attackCooldown`.  At spawn (src/unnamed/part_009, line 95) the timer
starts at `Math.random() * config.attackCooldown`, an arbitrary value of
`[0, attackCooldown)` — in particular a non-integer. -/

/-- Per-tick cooldown decrement. -/
def cooldownTick (v : ℚ) : ℚ := if v > 0 then v - 1 else v

/-- Cooldown after the whole combat phase of one tick: the decrement, then a
reset to `attackCooldown` if the unit attacked this tick. -/
def cooldownAfterCombat (v attackCooldown : ℚ) (attacked : Bool) : ℚ :=
  if attacked then attackCooldown else cooldownTick v

/-! ## Movement integration

From `MovementSystem.update` (src/unnamed/part_006, lines 7–34) and the same
sequence in `SimulationEngine.update` (src/unnamed/part_009, lines 362–380):
friction `*= 0.95`, clamp `|velocity|` to the class speed, integrate position,
clamp position to `[radius, world - radius]`.  `m` stands for
`Math.sqrt(speedSq)` of the post-friction velocity. -/

/-- Velocity after friction and the speed clamp.
`m` is the magnitude of the post-friction velocity (see module comment). -/
def movementVelocity (v : Vec2) (m speed : ℚ) : Vec2 :=
  let v1 : Vec2 := ⟨v.x * (19/20), v.y * (19/20)⟩
  if v1.x ^ 2 + v1.y ^ 2 > speed * speed then
    ⟨v1.x / m * speed, v1.y / m * speed⟩
  else v1

/-- Position after integration and the world-bounds clamp. -/
def movementPosition (p v' : Vec2) (radius : ℚ) : Vec2 :=
  ⟨max radius (min (WORLD_WIDTH - radius) (p.x + v'.x)),
   max radius (min (WORLD_HEIGHT - radius) (p.y + v'.y))⟩

/-! ## Combat knockback

From `CombatSystem.update` (src/services/ecs/systems/CombatSystem.ts,
lines 126–134): `nx = dx/d`, `ny = dy/d`, `kb = (effDmg * 0.15) / mass`,
`velocity += n * kb`.  `d = Math.sqrt(dSq)` is passed explicitly. -/

/-- Target velocity after the knockback impulse of one attack. -/
def knockback (tvel : Vec2) (dx dy d effDmg tmass : ℚ) : Vec2 :=
  let nx := dx / d
  let ny := dy / d
  let kb := effDmg * (3/20) / tmass
  ⟨tvel.x + nx * kb, tvel.y + ny * kb⟩

/-! ## Pairwise collision resolution (positional correction)

From `SimulationEngine.resolveCollisions` (src/services/simulation.ts,
lines 715–738) — the identical displacement also appears in
`CollisionSystem.update` (src/services/ecs/systems/CollisionSystem.ts,
lines 44–64) and src/unnamed/part_009, lines 499–526.
`d = Math.sqrt(distSq)` is passed explicitly. -/

/-- Positions of an overlapping pair after one positional correction:
`pen = minDist - d`, `ratio1 = m2/(m1+m2)`, `ratio2 = m1/(m1+m2)`,
`p1 += n*pen*ratio1`, `p2 -= n*pen*ratio2` with `n = (p1-p2)/d`. -/
def resolvePair (p1 p2 : Vec2) (m1 m2 rad1 rad2 d : ℚ) : Vec2 × Vec2 :=
  let dx := p1.x - p2.x
  let dy := p1.y - p2.y
  let minDist := rad1 + rad2
  let pen := minDist - d
  let totalMass := m1 + m2
  let ratio1 := m2 / totalMass
  let ratio2 := m1 / totalMass
  let nx := dx / d
  let ny := dy / d
  (⟨p1.x + nx * pen * ratio1, p1.y + ny * pen * ratio1⟩,
   ⟨p2.x - nx * pen * ratio2, p2.y - ny * pen * ratio2⟩)

/-! ### Theorems: C2 (damage floor) -/

/-- **C2.** For every attack resolved by the combat system, with attacker
damage `dmg` (after any charge/momentum bonus) and target flat defense
`defense`, the hit-point damage applied to the target's health equals
`max 1 (dmg - defense)`; in particular, whenever `defense ≥ dmg` the applied
damage is exactly `1`, never `0` or negative. -/
theorem damage_floor (dmg defense health morale attackCooldown : ℚ)
    (fleeing : Bool) :
    health - (resolveAttack dmg defense health morale fleeing
        attackCooldown).targetHealth = max 1 (dmg - defense) ∧
    (defense ≥ dmg →
      health - (resolveAttack dmg defense health morale fleeing
          attackCooldown).targetHealth = 1) := by
  constructor
  · simp [resolveAttack]
  · intro h
    have hle : dmg - defense ≤ 1 := by linarith
    simp [resolveAttack, max_eq_left hle]

/-- Witness for `damage_floor`: a tank (damage 25) striking a soldier
(defense 2) removes `max 1 (25 - 2) = 23` hit points, and an attack with
damage 8 against defense 10 removes exactly 1. -/
theorem damage_floor_witness :
    (40 : ℚ) - (resolveAttack 25 2 40 100 false 75).targetHealth = 23 ∧
    (10 : ℚ) ≥ 8 ∧
    (40 : ℚ) - (resolveAttack 8 10 40 100 false 35).targetHealth = 1 := by
  refine ⟨?_, by norm_num, (damage_floor 8 10 40 100 35 false).2 (by norm_num)⟩
  have h := (damage_floor 25 2 40 100 75 false).1
  rw [h]; norm_num

/-! ### Theorems: C7 (cooldown timer) -/

/-- **C7, counterexample.** The claim states the cooldown timer is never
negative at any point in a unit's lifetime.  At spawn the timer is
`Math.random() * attackCooldown`, which can be any value of
`[0, attackCooldown)` — e.g. `1/2` for a soldier (`attackCooldown = 35`).
That value is positive, so the next tick decrements it to `-1/2 < 0`. -/
theorem cooldown_negative_counterexample :
    (0 : ℚ) ≤ 1/2 ∧ (1/2 : ℚ) < 35 ∧ cooldownTick (1/2) < 0 := by
  refine ⟨by norm_num, by norm_num, ?_⟩
  norm_num [cooldownTick]

/-- **C7, amended.** The cooldown timer is decremented exactly once per tick
when positive and left unchanged when zero or below; it is never less than or
equal to `-1` at any point in a unit's lifetime (spawn values lie in
`[0, attackCooldown)` and resets are the nonnegative `attackCooldown`), though
it can dip into `(-1, 0)` after a fractional spawn value crosses zero. -/
theorem cooldown_behavior (v attackCooldown : ℚ) (attacked : Bool)
    (hv : -1 < v) (hcd : 0 ≤ attackCooldown) :
    (v > 0 → cooldownTick v = v - 1) ∧
    (v ≤ 0 → cooldownTick v = v) ∧
    -1 < cooldownAfterCombat v attackCooldown attacked := by
  refine ⟨fun h => by simp [cooldownTick, h],
          fun h => by simp [cooldownTick, not_lt.mpr h], ?_⟩
  cases attacked with
  | true => simp only [cooldownAfterCombat, if_true]; linarith
  | false =>
    simp only [cooldownAfterCombat, cooldownTick, Bool.false_eq_true, if_false]
    split <;> linarith

/-- Witness for `cooldown_behavior` at `v = 1/2`, `attackCooldown = 35`,
no attack this tick. -/
theorem cooldown_behavior_witness :
    (-1 : ℚ) < 1/2 ∧ (0 : ℚ) ≤ 35 ∧
    -1 < cooldownAfterCombat (1/2) 35 false := by
  refine ⟨by norm_num, by norm_num, ?_⟩
  exact (cooldown_behavior (1/2) 35 false (by norm_num) (by norm_num)).2.2

/-! ### Theorems: C3 (speed clamp) -/

/-- **C3, counterexample.** The claim states that at the end of every tick the
magnitude of every unit's velocity is at most its class's maximum speed,
established by the clamp during movement integration.  But in the tick
pipeline the combat knockback (`CombatSystem.update`, lines 126–134;
src/unnamed/part_009, lines 436–443) runs after the movement clamp with no
re-clamp.  Concrete scenario: a soldier (`speed = 2.4 = 12/5`, `mass = 1`,
`defense = 2`) moving with velocity `(4, 0)` integrates to the clamped
`(12/5, 0)` (post-friction magnitude `m = 19/5`), then a tank's hit
(`damage = 25`, `effDmg = max 1 (25-2) = 23`) from 10 px due west adds a
knockback of `23 * 0.15 / 1 = 69/20`, leaving end-of-tick velocity
`(117/20, 0)` with `|v|² = (117/20)² > (12/5)²`. -/
theorem speed_clamp_counterexample :
    -- m = 19/5 really is the post-friction magnitude of (4,0)
    ((4 : ℚ) * (19/20)) ^ 2 + ((0 : ℚ) * (19/20)) ^ 2 = (19/5) * (19/5) ∧
    movementVelocity ⟨4, 0⟩ (19/5) (12/5) = ⟨12/5, 0⟩ ∧
    -- attacker at (0,750), target at (10,750): d = 10 with d² = dx² + dy²
    (10 : ℚ) * 10 = (10 - 0) ^ 2 + (750 - 750) ^ 2 ∧
    (let vEnd := knockback (movementVelocity ⟨4, 0⟩ (19/5) (12/5))
        (10 - 0) (750 - 750) 10 (max 1 (25 - 2)) 1
     vEnd.x ^ 2 + vEnd.y ^ 2 > (12/5 : ℚ) * (12/5)) := by
  refine ⟨by norm_num, ?_, by norm_num, ?_⟩ <;>
    simp [movementVelocity, knockback] <;> norm_num

/-- **C3, amended.** Immediately after a unit's movement integration the
clamp does bound its speed: if `m` is the magnitude of the post-friction
velocity (`m ≥ 0`, `m² = |0.95·v|²`), then the integrated velocity satisfies
`|v'|² ≤ speed²`.  The bound is not an end-of-tick
invariant: combat knockback and collision impulses later in the same tick can
exceed it (see `speed_clamp_counterexample`); it is re-established by the next
tick's integration. -/
theorem speed_clamp_after_integration (v : Vec2) (m speed : ℚ)
    (hm : m * m = (v.x * (19/20)) ^ 2 + (v.y * (19/20)) ^ 2)
    (hm0 : 0 ≤ m) :
    (movementVelocity v m speed).x ^ 2 + (movementVelocity v m speed).y ^ 2 ≤
      speed * speed := by
  by_cases hgt : (v.x * (19/20)) ^ 2 + (v.y * (19/20)) ^ 2 > speed * speed
  · have hmpos : 0 < m := by
      rcases lt_or_eq_of_le hm0 with h | h
      · exact h
      · exfalso
        have h0 : (v.x * (19/20)) ^ 2 + (v.y * (19/20)) ^ 2 = 0 := by
          rw [← hm, ← h]; ring
        rw [h0] at hgt
        nlinarith [sq_nonneg speed]
    have hmne : m ≠ 0 := ne_of_gt hmpos
    have hred : movementVelocity v m speed =
        ⟨v.x * (19/20) / m * speed, v.y * (19/20) / m * speed⟩ := by
      simp [movementVelocity, hgt]
    rw [hred]
    have hsum : (v.x * (19/20) / m * speed) ^ 2 + (v.y * (19/20) / m * speed) ^ 2
        = ((v.x * (19/20)) ^ 2 + (v.y * (19/20)) ^ 2) * speed ^ 2 / m ^ 2 := by
      field_simp; ring
    rw [show ((⟨v.x * (19/20) / m * speed, v.y * (19/20) / m * speed⟩ : Vec2).x)
        = v.x * (19/20) / m * speed from rfl,
      show ((⟨v.x * (19/20) / m * speed, v.y * (19/20) / m * speed⟩ : Vec2).y)
        = v.y * (19/20) / m * speed from rfl, hsum, ← hm]
    have hmm : m * m = m ^ 2 := by ring
    rw [hmm, mul_div_assoc, mul_comm, div_mul_cancel₀ _ (pow_ne_zero 2 hmne)]
    nlinarith
  · have hred : movementVelocity v m speed = ⟨v.x * (19/20), v.y * (19/20)⟩ := by
      simp [movementVelocity, hgt]
    rw [hred]
    push_neg at hgt
    exact hgt

/-- Witness for `speed_clamp_after_integration` at `v = (4, 0)`, `m = 19/5`,
`speed = 12/5`. -/
theorem speed_clamp_after_integration_witness :
    ((19/5 : ℚ) * (19/5) = ((4 : ℚ) * (19/20)) ^ 2 + ((0 : ℚ) * (19/20)) ^ 2) ∧
    (movementVelocity ⟨4, 0⟩ (19/5) (12/5)).x ^ 2 +
      (movementVelocity ⟨4, 0⟩ (19/5) (12/5)).y ^ 2 ≤ (12/5 : ℚ) * (12/5) := by
  refine ⟨by norm_num, ?_⟩
  exact speed_clamp_after_integration ⟨4, 0⟩ (19/5) (12/5)
    (by norm_num) (by norm_num)

/-! ### Theorems: C4 (world-bounds invariant) -/

/-- **C4, counterexample.** The claim states every unit's position lies in
`[radius, world - radius]` at the end of every tick.  Collision resolution
(`SimulationEngine.resolveCollisions`; `CollisionSystem.update`) runs after
the movement bounds clamp and displaces positions without re-clamping.
Concrete scenario: soldiers A at `(6, 750)` (radius 6, exactly on the lower
bound) and B at `(10, 750)`, masses 1 each, distance `d = 4` (`d² = 16`),
overlap `pen = 12 - 4 = 8`; A is pushed to `x = 6 - 4 = 2 < 6 = radius`,
outside the claimed region, and no later phase of the tick restores it. -/
theorem bounds_counterexample :
    (4 : ℚ) * 4 = ((6 : ℚ) - 10) ^ 2 + ((750 : ℚ) - 750) ^ 2 ∧
    ((resolvePair ⟨6, 750⟩ ⟨10, 750⟩ 1 1 6 6 4).1).x < 6 := by
  constructor
  · norm_num
  · simp [resolvePair]
    norm_num

/-- **C4, amended.** Immediately after a unit's movement integration its
position does lie in the claimed box: if `radius ≤ WORLD_WIDTH - radius` and
`radius ≤ WORLD_HEIGHT - radius` then the clamped position satisfies
`x ∈ [radius, WORLD_WIDTH - radius]` and `y ∈ [radius, WORLD_HEIGHT - radius]`.
The bound is not an end-of-tick invariant: collision resolution later in the
same tick can push units outside it (see `bounds_counterexample`); it is
re-established by the next tick's integration. -/
theorem bounds_after_integration (p v' : Vec2) (radius : ℚ)
    (hx : radius ≤ WORLD_WIDTH - radius) (hy : radius ≤ WORLD_HEIGHT - radius) :
    radius ≤ (movementPosition p v' radius).x ∧
    (movementPosition p v' radius).x ≤ WORLD_WIDTH - radius ∧
    radius ≤ (movementPosition p v' radius).y ∧
    (movementPosition p v' radius).y ≤ WORLD_HEIGHT - radius := by
  unfold movementPosition
  refine ⟨le_max_left _ _, ?_, le_max_left _ _, ?_⟩
  · exact max_le hx (min_le_left _ _)
  · exact max_le hy (min_le_left _ _)

/-- Witness for `bounds_after_integration`: a soldier (radius 6) at
`(6, 750)` with velocity `(-5, -800)` stays inside the box. -/
theorem bounds_after_integration_witness :
    ((6 : ℚ) ≤ WORLD_WIDTH - 6) ∧ ((6 : ℚ) ≤ WORLD_HEIGHT - 6) ∧
    (6 ≤ (movementPosition ⟨6, 750⟩ ⟨-5, -800⟩ 6).x ∧
     (movementPosition ⟨6, 750⟩ ⟨-5, -800⟩ 6).x ≤ WORLD_WIDTH - 6 ∧
     6 ≤ (movementPosition ⟨6, 750⟩ ⟨-5, -800⟩ 6).y ∧
     (movementPosition ⟨6, 750⟩ ⟨-5, -800⟩ 6).y ≤ WORLD_HEIGHT - 6) := by
  refine ⟨?_, ?_, bounds_after_integration ⟨6, 750⟩ ⟨-5, -800⟩ 6 ?_ ?_⟩ <;>
    norm_num [WORLD_WIDTH, WORLD_HEIGHT]

/-! ### Theorems: C9 (mass-weighted collision fairness) -/

/-- **C9.** When one overlapping, non-coincident pair with masses `m1`, `m2`
and penetration `pen = (rad1 + rad2) - d` is resolved in a single pass
(`d` the center distance, `d·d = |p1-p2|²`, `0 < d`, masses positive):
the two units are displaced along the contact normal by `pen·m2/(m1+m2)` and
`pen·m1/(m1+m2)` respectively, the displacements sum to `pen`, for
`m2 = m1/10` the light unit's displacement is exactly 10 times the heavy
unit's, and afterwards the squared center distance equals `(rad1 + rad2)²` —
the pair ends exactly touching, never pushed past full separation. -/
theorem collision_mass_fairness (p1 p2 : Vec2) (m1 m2 rad1 rad2 d : ℚ)
    (hd : d * d = (p1.x - p2.x) ^ 2 + (p1.y - p2.y) ^ 2) (hdpos : 0 < d)
    (hm1 : 0 < m1) (hm2 : 0 < m2) :
    (let q := resolvePair p1 p2 m1 m2 rad1 rad2 d
     let pen := (rad1 + rad2) - d
     -- unit 1 is displaced by pen·m2/(m1+m2) along the unit normal n = (p1-p2)/d
     ((q.1.x - p1.x) = (p1.x - p2.x) / d * (pen * (m2 / (m1 + m2))) ∧
      (q.1.y - p1.y) = (p1.y - p2.y) / d * (pen * (m2 / (m1 + m2)))) ∧
     -- unit 2 is displaced by pen·m1/(m1+m2) along -n
     ((q.2.x - p2.x) = -((p1.x - p2.x) / d) * (pen * (m1 / (m1 + m2))) ∧
      (q.2.y - p2.y) = -((p1.y - p2.y) / d) * (pen * (m1 / (m1 + m2)))) ∧
     -- the two displacement magnitudes sum to pen
     pen * (m2 / (m1 + m2)) + pen * (m1 / (m1 + m2)) = pen ∧
     -- with m2 = m1/10 the light unit moves exactly 10× the heavy unit
     (m2 = m1 / 10 →
       pen * (m1 / (m1 + m2)) = 10 * (pen * (m2 / (m1 + m2)))) ∧
     -- the pair ends exactly touching: squared distance = (rad1+rad2)²
     (q.1.x - q.2.x) ^ 2 + (q.1.y - q.2.y) ^ 2 = (rad1 + rad2) ^ 2) := by
  have htot : m1 + m2 ≠ 0 := by positivity
  have hdne : d ≠ 0 := ne_of_gt hdpos
  refine ⟨⟨?_, ?_⟩, ⟨?_, ?_⟩, ?_, ?_, ?_⟩
  · simp only [resolvePair]; ring
  · simp only [resolvePair]; ring
  · simp only [resolvePair]; ring
  · simp only [resolvePair]; ring
  · field_simp; ring
  · intro h10
    subst h10
    field_simp
    ring
  · -- p1' - p2' = n · (d + pen) = n · (rad1 + rad2); |n|² = 1 via hd
    simp only [resolvePair]
    have hx : (p1.x + (p1.x - p2.x) / d * ((rad1 + rad2) - d) * (m2 / (m1 + m2)))
        - (p2.x - (p1.x - p2.x) / d * ((rad1 + rad2) - d) * (m1 / (m1 + m2)))
        = (p1.x - p2.x) / d * (rad1 + rad2) := by
      field_simp
      ring
    have hy : (p1.y + (p1.y - p2.y) / d * ((rad1 + rad2) - d) * (m2 / (m1 + m2)))
        - (p2.y - (p1.y - p2.y) / d * ((rad1 + rad2) - d) * (m1 / (m1 + m2)))
        = (p1.y - p2.y) / d * (rad1 + rad2) := by
      field_simp
      ring
    rw [hx, hy]
    have : ((p1.x - p2.x) / d * (rad1 + rad2)) ^ 2
        + ((p1.y - p2.y) / d * (rad1 + rad2)) ^ 2
        = ((p1.x - p2.x) ^ 2 + (p1.y - p2.y) ^ 2) / (d * d) * (rad1 + rad2) ^ 2 := by
      field_simp
      ring
    rw [this, ← hd, div_self (by positivity), one_mul]

/-- Witness for `collision_mass_fairness`: a tank-like unit of mass 10 at
`(100, 100)` against a light unit of mass 1 at `(104, 103)` (distance 5,
radii 6 and 7, penetration 8). -/
theorem collision_mass_fairness_witness :
    ((5 : ℚ) * 5 = ((100 : ℚ) - 104) ^ 2 + ((100 : ℚ) - 103) ^ 2) ∧
    ((0 : ℚ) < 5) ∧ ((0 : ℚ) < 10) ∧ ((0 : ℚ) < 1) ∧
    (let q := resolvePair ⟨100, 100⟩ ⟨104, 103⟩ 10 1 6 7 5
     (q.1.x - q.2.x) ^ 2 + (q.1.y - q.2.y) ^ 2 = ((6 : ℚ) + 7) ^ 2) := by
  refine ⟨by norm_num, by norm_num, by norm_num, by norm_num, ?_⟩
  exact (collision_mass_fairness ⟨100, 100⟩ ⟨104, 103⟩ 10 1 6 7 5
    (by norm_num) (by norm_num) (by norm_num) (by norm_num)).2.2.2.2

/-! ## Death sweep (per-tick combat phase and deferred removal)

From `SimulationEngine.update` (src/services/simulation.ts, lines 320–688;
src/unnamed/part_009, lines 186–475).  The per-unit loop iterates
`units.values()` in insertion order; each unit with a live target in range
and an expired cooldown subtracts its effective damage from the target's
health; at the end of each unit's own iteration the engine checks
`if (unit.health <= 0) deadUnits.push(unit.id)`.  After the loop,
`resolveCollisions()` runs on the untouched store, and only then the ids in
`deadUnits` are deleted.

The embedding keeps exactly the state the death logic reads or writes —
id, health, current target, and the effective damage an attack deals — and
abstracts the range/cooldown gate to "a unit with a target attacks it this
tick" (the claims quantify over attacks that do happen). -/

/-- The slice of a unit relevant to combat-phase death accounting. -/
structure SUnit where
  id : ℕ
  health : ℚ
  target : Option ℕ
  damage : ℚ
deriving DecidableEq, Repr

/-- `target.health -= effectiveDamage` on the store
(mutation of the target object seen through the live `Map`). -/
def applyDamageTo (store : List SUnit) (tid : ℕ) (dmg : ℚ) : List SUnit :=
  store.map fun u => if u.id = tid then { u with health := u.health - dmg } else u

/-- One unit's iteration of the per-unit loop: re-read the unit from the live
store, apply its attack (if any), then run the死 check
`if (unit.health <= 0) deadUnits.push(unit.id)` on its current health. -/
def combatStep (acc : List SUnit × List ℕ) (uid : ℕ) : List SUnit × List ℕ :=
  match acc.1.find? (fun u => u.id = uid) with
  | none => acc
  | some u =>
    let st' := match u.target with
      | some tid => applyDamageTo acc.1 tid u.damage
      | none => acc.1
    let selfU := (st'.find? (fun v => v.id = uid)).getD u
    if selfU.health ≤ 0 then (st', acc.2 ++ [uid]) else (st', acc.2)

/-- The whole per-unit loop of one tick: store after all iterations plus the
collected `deadUnits` list. -/
def combatPhase (store : List SUnit) : List SUnit × List ℕ :=
  (store.map (·.id)).foldl combatStep (store, [])

/-- The cleanup after all systems finish: `units.delete(id)` for every
collected id. -/
def deathSweep (store : List SUnit) (dead : List ℕ) : List SUnit :=
  store.filter fun u => u.id ∉ dead

/-- One tick of the death-relevant pipeline: combat phase (collecting
`deadUnits`), then — after collision resolution, which does not add or remove
units — the death sweep. -/
def simTick (store : List SUnit) : List SUnit :=
  let r := combatPhase store
  deathSweep r.1 r.2

/-! ### Theorems: C5 (death deferral) -/

/-- **C5, counterexample.**  The claim says every unit whose health reaches
`≤ 0` during the combat phase of tick `N` joins that tick's death list and is
absent from the store at the start of tick `N+1`.  But the death check runs at
the end of each unit's *own* iteration of the per-unit loop.  With a victim
(id 0, health 5) iterated *before* its killer (id 1, damage 10, targeting 0):
the victim's check sees health 5 > 0, the killer then drops it to `-5`, and no
later check runs — so at the start of tick `N+1` the dead unit (health `-5`)
is still in the store. -/
theorem death_deferral_counterexample :
    (let store : List SUnit :=
      [⟨0, 5, none, 0⟩, ⟨1, 10, some 0, 10⟩]
     -- unit 0's health reaches ≤ 0 during the combat phase of this tick,
     ((combatPhase store).1.find? (fun u => u.id = 0)).map (·.health)
        = some (-5) ∧
     -- yet the death list is empty and unit 0 survives into the next tick
     (combatPhase store).2 = [] ∧
     (simTick store).map (·.id) = [0, 1]) := by
  refine ⟨?_, ?_, ?_⟩ <;>
    · simp [combatPhase, combatStep, applyDamageTo, simTick, deathSweep,
        List.find?]
      norm_num

/-- Helper: `applyDamageTo` preserves the id sequence of the store. -/
theorem applyDamageTo_idmap (store : List SUnit) (tid : ℕ) (dmg : ℚ) :
    (applyDamageTo store tid dmg).map (·.id) = store.map (·.id) := by
  unfold applyDamageTo
  rw [List.map_map]
  apply List.map_congr_left
  intro u _
  by_cases h : u.id = tid <;> simp [h]

/-- Helper: one combat iteration preserves the id sequence of the store. -/
theorem combatStep_idmap (acc : List SUnit × List ℕ) (uid : ℕ) :
    ((combatStep acc uid).1).map (·.id) = acc.1.map (·.id) := by
  unfold combatStep
  cases hf : acc.1.find? (fun u => u.id = uid) with
  | none => rfl
  | some u =>
    simp only
    split <;>
    · cases ht : u.target with
      | none => simp [ht]
      | some tid => simp [ht, applyDamageTo_idmap]

/-- Helper: the whole combat phase preserves the id sequence. -/
theorem combatFold_idmap (ids : List ℕ) (acc : List SUnit × List ℕ) :
    ((ids.foldl combatStep acc).1).map (·.id) = acc.1.map (·.id) := by
  induction ids generalizing acc with
  | nil => rfl
  | cons uid rest ih => rw [List.foldl_cons, ih, combatStep_idmap]

/-- Helper: every unit in the store after `applyDamageTo` comes from a unit of
the original store with the same id and damage, and health either unchanged or
reduced by `dmg`. -/
theorem mem_applyDamageTo (store : List SUnit) (tid : ℕ) (dmg : ℚ)
    (v' : SUnit) (hv : v' ∈ applyDamageTo store tid dmg) :
    ∃ v ∈ store, v'.id = v.id ∧ v'.damage = v.damage ∧
      (v'.health = v.health ∨ v'.health = v.health - dmg) := by
  unfold applyDamageTo at hv
  obtain ⟨v, hvmem, hveq⟩ := List.mem_map.1 hv
  by_cases h : v.id = tid
  · rw [if_pos h] at hveq
    exact ⟨v, hvmem, by rw [← hveq], by rw [← hveq], Or.inr (by rw [← hveq])⟩
  · rw [if_neg h] at hveq
    exact ⟨v, hvmem, by rw [← hveq], by rw [← hveq], Or.inl (by rw [← hveq])⟩

/-- Helper: one combat iteration preserves both store invariants — all damages
nonnegative, and every unit carrying id `uid0` has health at most `H`. -/
theorem combatStep_invariants (uid0 : ℕ) (H : ℚ)
    (acc : List SUnit × List ℕ) (uid : ℕ)
    (hd : ∀ v ∈ acc.1, 0 ≤ v.damage)
    (hh : ∀ v ∈ acc.1, v.id = uid0 → v.health ≤ H) :
    (∀ v ∈ (combatStep acc uid).1, 0 ≤ v.damage) ∧
    (∀ v ∈ (combatStep acc uid).1, v.id = uid0 → v.health ≤ H) := by
  unfold combatStep
  cases hf : acc.1.find? (fun u => u.id = uid) with
  | none => exact ⟨hd, hh⟩
  | some u =>
    have humem : u ∈ acc.1 := List.mem_of_find?_eq_some hf
    have hudmg : 0 ≤ u.damage := hd u humem
    simp only
    have key : ∀ st' : List SUnit,
        (st' = acc.1 ∨ ∃ tid, st' = applyDamageTo acc.1 tid u.damage) →
        (∀ v ∈ st', 0 ≤ v.damage) ∧ (∀ v ∈ st', v.id = uid0 → v.health ≤ H) := by
      rintro st' (rfl | ⟨tid, rfl⟩)
      · exact ⟨hd, hh⟩
      · constructor
        · intro v hv
          obtain ⟨w, hw, _, hdm, _⟩ := mem_applyDamageTo _ _ _ v hv
          rw [hdm]; exact hd w hw
        · intro v hv hid
          obtain ⟨w, hw, hidw, _, hhe⟩ := mem_applyDamageTo _ _ _ v hv
          have hwle : w.health ≤ H := hh w hw (by rw [← hidw, hid])
          rcases hhe with h | h <;> rw [h] <;> linarith
    cases ht : u.target with
    | none =>
      have h := key acc.1 (Or.inl rfl)
      split <;> exact h
    | some tid =>
      have h := key (applyDamageTo acc.1 tid u.damage) (Or.inr ⟨tid, rfl⟩)
      split <;> exact h

/-- Helper: the combat fold preserves both store invariants. -/
theorem combatFold_invariants (uid0 : ℕ) (H : ℚ) (ids : List ℕ)
    (acc : List SUnit × List ℕ)
    (hd : ∀ v ∈ acc.1, 0 ≤ v.damage)
    (hh : ∀ v ∈ acc.1, v.id = uid0 → v.health ≤ H) :
    (∀ v ∈ (ids.foldl combatStep acc).1, 0 ≤ v.damage) ∧
    (∀ v ∈ (ids.foldl combatStep acc).1, v.id = uid0 → v.health ≤ H) := by
  induction ids generalizing acc with
  | nil => exact ⟨hd, hh⟩
  | cons uid rest ih =>
    rw [List.foldl_cons]
    obtain ⟨hd', hh'⟩ := combatStep_invariants uid0 H acc uid hd hh
    exact ih _ hd' hh'

/-- Helper: the death list only grows, both through one iteration and through
the rest of the fold. -/
theorem deadList_monotone (ids : List ℕ) (acc : List SUnit × List ℕ) (x : ℕ)
    (hx : x ∈ acc.2) : x ∈ (ids.foldl combatStep acc).2 := by
  induction ids generalizing acc with
  | nil => exact hx
  | cons uid rest ih =>
    rw [List.foldl_cons]
    apply ih
    unfold combatStep
    cases hf : acc.1.find? (fun u => u.id = uid) with
    | none => exact hx
    | some u =>
      simp only
      split
      · exact List.mem_append_left _ hx
      · exact hx

/-- Helper: when the iteration of a unit whose id maps to health `≤ 0` in the
current store runs, that id is pushed onto the death list. -/
theorem combatStep_collects (uid : ℕ) (H : ℚ) (acc : List SUnit × List ℕ)
    (hd : ∀ v ∈ acc.1, 0 ≤ v.damage)
    (hh : ∀ v ∈ acc.1, v.id = uid → v.health ≤ H)
    (hH : H ≤ 0)
    (hin : uid ∈ acc.1.map (·.id)) :
    uid ∈ (combatStep acc uid).2 := by
  obtain ⟨w, hwmem, hwid⟩ := List.mem_map.1 hin
  have hsome : (acc.1.find? (fun u => u.id = uid)).isSome := by
    rw [List.find?_isSome]
    exact ⟨w, hwmem, by simp [hwid]⟩
  obtain ⟨u, hf⟩ := Option.isSome_iff_exists.1 hsome
  have humem : u ∈ acc.1 := List.mem_of_find?_eq_some hf
  have huid : u.id = uid := by
    have := List.find?_some hf
    simpa using this
  unfold combatStep
  rw [hf]
  simp only
  -- the store after this unit's (possible) attack still satisfies the bound
  have hst' : ∀ st' : List SUnit,
      (st' = acc.1 ∨ ∃ tid, st' = applyDamageTo acc.1 tid u.damage) →
      ∀ v ∈ st', v.id = uid → v.health ≤ H := by
    rintro st' (rfl | ⟨tid, rfl⟩)
    · exact hh
    · intro v hv hid
      obtain ⟨x, hx, hidx, _, hhe⟩ := mem_applyDamageTo _ _ _ v hv
      have : x.health ≤ H := hh x hx (by rw [← hidx, hid])
      have hxd : 0 ≤ u.damage := hd u humem
      rcases hhe with h | h <;> rw [h] <;> linarith
  have hself : ∀ st' : List SUnit,
      (st' = acc.1 ∨ ∃ tid, st' = applyDamageTo acc.1 tid u.damage) →
      ((st'.find? (fun v => v.id = uid)).getD u).health ≤ 0 := by
    intro st' hcase
    cases hfind : st'.find? (fun v => v.id = uid) with
    | none =>
      simp only [Option.getD_none]
      exact le_trans (hh u humem huid) hH
    | some v =>
      simp only [Option.getD_some]
      have hvmem : v ∈ st' := List.mem_of_find?_eq_some hfind
      have hvid : v.id = uid := by simpa using List.find?_some hfind
      exact le_trans (hst' st' hcase v hvmem hvid) hH
  cases ht : u.target with
  | none =>
    rw [if_pos (hself acc.1 (Or.inl rfl))]
    exact List.mem_append_right _ (List.mem_singleton.2 rfl)
  | some tid =>
    rw [if_pos (hself (applyDamageTo acc.1 tid u.damage) (Or.inr ⟨tid, rfl⟩))]
    exact List.mem_append_right _ (List.mem_singleton.2 rfl)

/-- **C5, amended.**  Death removal is deferred, but keyed to each unit's own
iteration: a unit whose health is `≤ 0` when its own death check runs is
appended to the per-tick death list and removed after all systems finish,
while a unit killed by an attacker iterated *after* it is missed by that
tick's check and is removed only at the end of the *following* tick.  Proved
here for the following-tick case (ids unique, all damages nonnegative, so
health never increases): a unit entering a tick with health `≤ 0` (killed
late in the previous tick, see `death_deferral_counterexample`) is
(a) still retrievable by id throughout the tick's combat and collision
phases — the combat phase never adds or removes store entries — and
(b) absent from the store once that tick's death sweep has run. -/
theorem death_sweep_behavior (store : List SUnit) (u : SUnit)
    (hnodup : (store.map (·.id)).Nodup)
    (hdmg : ∀ v ∈ store, 0 ≤ v.damage)
    (hu : u ∈ store) (hh : u.health ≤ 0) :
    ((combatPhase store).1).map (·.id) = store.map (·.id) ∧
    u.id ∉ (simTick store).map (·.id) := by
  have hq : ∀ v ∈ store, v.id = u.id → v.health ≤ u.health := by
    intro v hv hid
    have := List.inj_on_of_nodup_map hnodup hv hu hid
    rw [this]
  refine ⟨combatFold_idmap _ _, ?_⟩
  -- u.id lands on the death list during the combat phase
  have hdead : u.id ∈ (combatPhase store).2 := by
    have huid : u.id ∈ store.map (·.id) := List.mem_map_of_mem _ hu
    obtain ⟨s, t, hst⟩ := List.append_of_mem huid
    unfold combatPhase
    rw [hst, List.foldl_append, List.foldl_cons]
    set acc1 := s.foldl combatStep (store, []) with hacc1
    have hinv := combatFold_invariants u.id u.health s (store, []) hdmg hq
    rw [← hacc1] at hinv
    have hidm : acc1.1.map (·.id) = store.map (·.id) := by
      rw [hacc1]; exact combatFold_idmap _ _
    have hin1 : u.id ∈ acc1.1.map (·.id) := by rw [hidm]; exact huid
    have hstep := combatStep_collects u.id u.health acc1 hinv.1 hinv.2 hh hin1
    exact deadList_monotone t _ _ hstep
  -- hence the sweep removes it
  intro hmem
  obtain ⟨v, hvmem, hvid⟩ := List.mem_map.1 hmem
  unfold simTick deathSweep at hvmem
  have := List.mem_filter.1 hvmem
  have hnot : v.id ∉ (combatPhase store).2 := by simpa using this.2
  exact hnot (hvid ▸ hdead)

/-- Witness for `death_sweep_behavior`: a store with a unit of id 0 and
health `-5` (killed at the end of the previous tick) and a healthy unit. -/
theorem death_sweep_behavior_witness :
    (let store : List SUnit := [⟨0, -5, none, 0⟩, ⟨1, 10, some 0, 10⟩]
     ((combatPhase store).1).map (·.id) = store.map (·.id) ∧
     (0 : ℕ) ∉ (simTick store).map (·.id)) := by
  have h := death_sweep_behavior
    [⟨0, -5, none, 0⟩, ⟨1, 10, some 0, 10⟩] ⟨0, -5, none, 0⟩
    (by simp) (by intro v hv; fin_cases hv <;> norm_num)
    (by simp) (by norm_num)
  exact h

/-! ## Entity store with query cache

From `World` (src/services/ecs/World.ts).  Component payloads are irrelevant
to query membership, so each per-kind `Map<EntityID, Data>` is modelled by its
key list in insertion order; `Map.set` on a present key overwrites the payload
without changing membership.  The `ComponentType` enum lives in the ECS
`components` module (not among the provided sources); its constructors are
taken from the usage sites in the systems.  The string cache key
`types.slice().sort().join(',')` is modelled by the sorted kind list (enum
values are distinct comma-free strings, so the join is injective on sorted
lists; any fixed total order gives the same canonicalisation behaviour). -/

/-- The component kinds of the ECS (`ComponentType`). -/
inductive CType where
  | transform | physics | health | team | combat
  | unitState | pathfinding | flocking | meta
deriving DecidableEq, Repr

/-- Numeric rank of a kind, standing for the lexicographic order on the
enum's string values used by `Array.prototype.sort`. -/
def CType.rank : CType → ℕ
  | .combat => 0 | .flocking => 1 | .health => 2 | .meta => 3
  | .pathfinding => 4 | .physics => 5 | .team => 6 | .transform => 7
  | .unitState => 8

/-- `types.slice().sort()` — canonical cache key. -/
def sortKey (types : List CType) : List CType :=
  types.insertionSort (fun a b => a.rank ≤ b.rank)

/-- The entity store: fresh-id counter, entity set, per-kind component key
lists, and the query cache. -/
structure World where
  nextId : ℕ
  entities : List ℕ
  comps : CType → List ℕ
  cache : List (List CType × List ℕ)

/-- `new World()`: empty store, empty per-kind maps, empty cache. -/
def World.init : World := ⟨0, [], fun _ => [], []⟩

/-- `createEntity`: allocate the next id; no cache invalidation
("creating entity doesn't affect queries until components added"). -/
def World.createEntity (w : World) : ℕ × World :=
  (w.nextId,
   { w with nextId := w.nextId + 1, entities := w.entities ++ [w.nextId] })

/-- `removeEntity`: drop the id from the entity set and from every per-kind
map, and clear the whole query cache. -/
def World.removeEntity (w : World) (id : ℕ) : World :=
  { w with entities := w.entities.filter (· ≠ id),
           comps := fun t => (w.comps t).filter (· ≠ id),
           cache := [] }

/-- `addComponent`: `Map.set` on kind `k` (append the key if absent), and
clear the whole query cache. -/
def World.addComponent (w : World) (id : ℕ) (k : CType) : World :=
  let newMap := if id ∈ w.comps k then w.comps k else w.comps k ++ [id]
  { w with comps := fun t => if t = k then newMap else w.comps t, cache := [] }

/-- `hasComponent`. -/
def World.hasComponent (w : World) (id : ℕ) (k : CType) : Prop :=
  id ∈ w.comps k

instance (w : World) (id : ℕ) (k : CType) :
    Decidable (w.hasComponent id k) := by
  unfold World.hasComponent; infer_instance

/-- The cache-miss computation of `query`: iterate the first kind's keys and
keep those having every remaining kind. -/
def World.queryCompute (w : World) (types : List CType) : List ℕ :=
  match types with
  | [] => w.entities
  | t0 :: rest => (w.comps t0).filter fun id => rest.all fun k => id ∈ w.comps k

/-- `query`: empty kind list returns all entities uncached; otherwise return
the cached result for the sorted key if present, else compute and cache. -/
def World.query (w : World) (types : List CType) : List ℕ × World :=
  if types = [] then (w.entities, w)
  else
    let key := sortKey types
    match w.cache.find? (fun e => e.1 = key) with
    | some e => (e.2, w)
    | none =>
      let res := w.queryCompute types
      (res, { w with cache := (key, res) :: w.cache })

/-- The store operations of the claim (queries included, since a query
populates the cache). -/
inductive WOp where
  | create
  | add (id : ℕ) (k : CType)
  | remove (id : ℕ)
  | runQuery (types : List CType)

/-- Apply one operation. -/
def applyOp (w : World) : WOp → World
  | .create => w.createEntity.2
  | .add id k => w.addComponent id k
  | .remove id => w.removeEntity id
  | .runQuery types => (w.query types).2

/-- Apply a whole operation sequence to the fresh world. -/
def applyOps (ops : List WOp) : World := ops.foldl applyOp World.init

/-- Every cached entry agrees with a from-scratch evaluation of its key. -/
def CacheConsistent (w : World) : Prop :=
  ∀ key res, (key, res) ∈ w.cache →
    ∀ id, id ∈ res ↔ ∀ k ∈ key, id ∈ w.comps k

/-- Helper: membership in the cache-miss computation is exactly "holds every
listed kind" (for a non-empty kind list). -/
theorem mem_queryCompute (w : World) (types : List CType) (id : ℕ)
    (hne : types ≠ []) :
    id ∈ w.queryCompute types ↔ ∀ k ∈ types, id ∈ w.comps k := by
  cases types with
  | nil => exact absurd rfl hne
  | cons t0 rest =>
    unfold World.queryCompute
    rw [List.mem_filter]
    constructor
    · rintro ⟨h0, hall⟩ k hk
      rcases List.mem_cons.1 hk with rfl | hk
      · exact h0
      · have := List.all_eq_true.1 hall k hk
        exact of_decide_eq_true this
    · intro h
      refine ⟨h t0 (List.mem_cons_self _ _), List.all_eq_true.2 ?_⟩
      intro k hk
      exact decide_eq_true (h k (List.mem_cons_of_mem _ hk))

/-- Helper: sorting the key preserves which kinds occur in it. -/
theorem mem_sortKey (types : List CType) (k : CType) :
    k ∈ sortKey types ↔ k ∈ types :=
  (List.perm_insertionSort _ types).mem_iff

/-- Helper: a query leaves the component maps untouched. -/
theorem query_comps (w : World) (types : List CType) :
    ((w.query types).2).comps = w.comps := by
  unfold World.query
  split
  · rfl
  · cases hf : w.cache.find? (fun e => e.1 = sortKey types) <;> simp [hf]

/-- Helper: a query (which may populate the cache) preserves cache
consistency. -/
theorem query_cacheConsistent (w : World) (types : List CType)
    (hw : CacheConsistent w) : CacheConsistent ((w.query types).2) := by
  intro key res h id
  rw [query_comps]
  by_cases hne : types = []
  · unfold World.query at h
    rw [if_pos hne] at h
    exact hw key res h id
  · unfold World.query at h
    rw [if_neg hne] at h
    cases hfind : w.cache.find? (fun e => e.1 = sortKey types) with
    | some e =>
      simp only [hfind] at h
      exact hw key res h id
    | none =>
      simp only [hfind, List.mem_cons] at h
      rcases h with heq | hmem
      · have hkey : key = sortKey types := congrArg Prod.fst heq
        have hres : res = w.queryCompute types := congrArg Prod.snd heq
        subst hkey
        subst hres
        rw [mem_queryCompute w types id hne]
        constructor
        · intro hall k hk
          exact hall k ((mem_sortKey types k).1 hk)
        · intro hall k hk
          exact hall k ((mem_sortKey types k).2 hk)
      · exact hw key res hmem id

/-- Helper: every reachable world has a consistent cache. -/
theorem cacheConsistent_applyOps (ops : List WOp) :
    CacheConsistent (applyOps ops) := by
  have step : ∀ w op, CacheConsistent w → CacheConsistent (applyOp w op) := by
    intro w op hw
    cases op with
    | create => exact fun key res h id => hw key res h id
    | add i k => intro key res h id; simp [World.addComponent, applyOp] at h
    | remove i => intro key res h id; simp [World.removeEntity, applyOp] at h
    | runQuery types => exact query_cacheConsistent w types hw
  induction ops using List.reverseRecOn with
  | nil => intro key res h id; simp [applyOps, World.init] at h
  | append_singleton l op ih =>
    unfold applyOps
    rw [List.foldl_append, List.foldl_cons, List.foldl_nil]
    exact step _ op ih

/-! ### Theorems: C8 (query exactness) -/

/-- **C8.** For every non-empty list of component kinds and after any finite
sequence of `createEntity`, `addComponent`, `removeEntity` (and intervening
cache-populating `query`) operations on a fresh `World`, `query` returns
exactly the set of entity ids that currently hold all of the listed kinds:
the cache never yields a stale id nor omits a qualifying one. -/
theorem query_exact (ops : List WOp) (types : List CType) (id : ℕ)
    (hne : types ≠ []) :
    id ∈ ((applyOps ops).query types).1 ↔
      ∀ k ∈ types, (applyOps ops).hasComponent id k := by
  set w := applyOps ops with hw
  have hcc : CacheConsistent w := cacheConsistent_applyOps ops
  unfold World.query
  rw [if_neg hne]
  cases hfind : w.cache.find? (fun e => e.1 = sortKey types) with
  | some e =>
    simp only [hfind]
    have hmem : e ∈ w.cache := List.mem_of_find?_eq_some hfind
    have hkey : e.1 = sortKey types := by simpa using List.find?_some hfind
    have := hcc e.1 e.2 (by rw [← Prod.mk.eta (p := e)] at hmem; exact hmem) id
    rw [hkey] at this
    exact Iff.trans this
      ⟨fun hall k hk => hall k ((mem_sortKey types k).2 hk),
       fun hall k hk => hall k ((mem_sortKey types k).1 hk)⟩
  | none =>
    simp only [hfind]
    exact mem_queryCompute w types id hne

/-- Witness for `query_exact`: create two entities, give entity 0 transform
and physics, entity 1 transform only, remove nobody; the transform+physics
query returns exactly entity 0 — checked against `hasComponent` on both
entities. -/
theorem query_exact_witness :
    (let ops : List WOp :=
      [.create, .create, .add 0 .transform, .add 0 .physics,
       .add 1 .transform, .runQuery [.transform, .physics]]
     let types : List CType := [.transform, .physics]
     (types ≠ []) ∧
     ((0 : ℕ) ∈ ((applyOps ops).query types).1 ↔
        ∀ k ∈ types, (applyOps ops).hasComponent 0 k) ∧
     ((0 : ℕ) ∈ ((applyOps ops).query types).1) ∧
     ((1 : ℕ) ∉ ((applyOps ops).query types).1)) := by
  refine ⟨by simp, query_exact _ _ 0 (by simp), ?_, ?_⟩ <;> decide

/-! ## MinHeap (A* open set)

From `MinHeap<T>` (src/services/pathfinding.ts, lines 5–78): an array-backed
binary min-heap with a `scoreFunction : T -> number`.  The backing array is a
`List α`, scores are `ℚ`, array reads `content[i]` become `List.getD i
default` (all reads the source performs are in bounds).  The loops of
`bubbleUp` and `sinkDown` are written with an explicit fuel argument to make
the recursion structural; `bubbleUp` moves its index strictly down and
`sinkDown` strictly up and below `length`, so fuels `n + 1` and `length`
never cut an execution short.  `bubbleUp` reads `element` once before its
loop; after each swap the element sits at the new index, so re-reading it per
level (as done here) yields the same value.

`sinkDown` carries the source's bug verbatim: `swap` is initialised to `-1`
(here `none`), yet the second-child test reads
`child2Score < (swap === null ? elemScore : child1Score)`; `swap === null` is
always false, so the threshold is always `child1Score` — the element's own
score is never compared against the second child. -/

section MinHeap

variable {α : Type} [Inhabited α]

/-- `bubbleUp(n)`: swap the element at `n` with its parent while its score is
smaller, with fuel making the recursion structural. -/
def bubbleUpF (s : α → ℚ) : ℕ → List α → ℕ → List α
  | 0, c, _ => c
  | fuel + 1, c, n =>
    if n = 0 then c
    else
      let element := c.getD n default
      let parentN := (n + 1) / 2 - 1
      let parent := c.getD parentN default
      if s element ≥ s parent then c
      else bubbleUpF s fuel ((c.set parentN element).set n parent) parentN

/-- `push(element)`: append, then bubble up from the last index. -/
def heapPush (s : α → ℚ) (c : List α) (x : α) : List α :=
  bubbleUpF s (c.length + 1) (c ++ [x]) c.length

/-- The swap index one `sinkDown` loop iteration picks (`-1` becomes `none`):
`child1N` when the first child beats the element, then `child2N` when the
second child's score is below `child1Score` — the buggy threshold the source
always uses, since `swap === null` is never true. -/
def sinkSwap (s : α → ℚ) (c : List α) (n : ℕ) : Option ℕ :=
  let length := c.length
  let elemScore := s (c.getD n default)
  let child2N := (n + 1) * 2
  let child1N := child2N - 1
  let child1Score := if child1N < length then s (c.getD child1N default) else 0
  let swap1 : Option ℕ :=
    if child1N < length ∧ s (c.getD child1N default) < elemScore
    then some child1N else none
  if child2N < length ∧ s (c.getD child2N default) < child1Score
  then some child2N else swap1

/-- `sinkDown(n)`, bug included (see section comment): swap the element at
`n` with the child `sinkSwap` picks until none qualifies. -/
def sinkDownF (s : α → ℚ) : ℕ → List α → ℕ → List α
  | 0, c, _ => c
  | fuel + 1, c, n =>
    match sinkSwap s c n with
    | none => c
    | some sw =>
      sinkDownF s fuel ((c.set n (c.getD sw default)).set sw (c.getD n default)) sw

/-- `pop()`: return `content[0]`, move the last element to the root and sink
it.  `pop` on the empty heap yields `undefined` in the source; here `none`.
The returned list is the heap's content afterwards. -/
def heapPop (s : α → ℚ) (c : List α) : Option (α × List α) :=
  match c with
  | [] => none
  | x :: xs =>
    let rest := (x :: xs).dropLast
    let endv := (x :: xs).getLast (by simp)
    if 0 < rest.length then
      some (x, sinkDownF s rest.length (rest.set 0 endv) 0)
    else some (x, rest)

/-- A sequence of pushes starting from the empty heap. -/
def heapPushAll (s : α → ℚ) (xs : List α) : List α :=
  xs.foldl (heapPush s) []

/-- The min-heap ordering of the backing array: every non-root entry scores
at least its parent. -/
def IsHeap (s : α → ℚ) (c : List α) : Prop :=
  ∀ i, 0 < i → i < c.length →
    s (c.getD ((i + 1) / 2 - 1) default) ≤ s (c.getD i default)

end MinHeap

section MinHeapLemmas

variable {α : Type} [Inhabited α] {s : α → ℚ}

/-- Helper: `getD` after an in-bounds `set` at the same index. -/
theorem getD_set_self (l : List α) (i : ℕ) (a : α) (h : i < l.length) :
    (l.set i a).getD i default = a := by
  rw [List.getD_eq_getElem _ _ (by simpa using h)]
  exact List.getElem_set_self (by simpa using h)

/-- Helper: `getD` after a `set` at a different index. -/
theorem getD_set_ne (l : List α) (i j : ℕ) (a : α) (hne : i ≠ j)
    (hj : j < l.length) :
    (l.set i a).getD j default = l.getD j default := by
  rw [List.getD_eq_getElem _ _ (by simpa using hj),
      List.getD_eq_getElem _ _ hj]
  exact List.getElem_set_ne hne _

/-- Helper: an in-bounds `getD` is a member. -/
theorem getD_mem (l : List α) (i : ℕ) (h : i < l.length) :
    l.getD i default ∈ l := by
  rw [List.getD_eq_getElem _ _ h]
  exact List.getElem_mem h

/-- Unfolding: `bubbleUp` at the root does nothing. -/
theorem bubbleUpF_idx_zero (fuel : ℕ) (c : List α) :
    bubbleUpF s (fuel + 1) c 0 = c := by
  simp only [bubbleUpF]
  simp

/-- Unfolding: `bubbleUp` stops when the element does not beat its parent. -/
theorem bubbleUpF_stop (fuel : ℕ) (c : List α) (n : ℕ) (hn0 : n ≠ 0)
    (hge : s (c.getD n default) ≥ s (c.getD ((n + 1) / 2 - 1) default)) :
    bubbleUpF s (fuel + 1) c n = c := by
  simp only [bubbleUpF]
  rw [if_neg hn0, if_pos hge]

/-- Unfolding: `bubbleUp` swaps with the parent and continues there. -/
theorem bubbleUpF_swap (fuel : ℕ) (c : List α) (n : ℕ) (hn0 : n ≠ 0)
    (hlt : ¬ s (c.getD n default) ≥ s (c.getD ((n + 1) / 2 - 1) default)) :
    bubbleUpF s (fuel + 1) c n =
      bubbleUpF s fuel
        ((c.set ((n + 1) / 2 - 1) (c.getD n default)).set n
          (c.getD ((n + 1) / 2 - 1) default))
        ((n + 1) / 2 - 1) := by
  simp only [bubbleUpF]
  rw [if_neg hn0, if_neg hlt]

/-- `bubbleUp` preserves the array length. -/
theorem bubbleUpF_length (fuel : ℕ) :
    ∀ (c : List α) (n : ℕ), (bubbleUpF s fuel c n).length = c.length := by
  induction fuel with
  | zero => intro c n; rfl
  | succ fuel ih =>
    intro c n
    by_cases hn0 : n = 0
    · rw [hn0, bubbleUpF_idx_zero]
    · by_cases hge :
        s (c.getD n default) ≥ s (c.getD ((n + 1) / 2 - 1) default)
      · rw [bubbleUpF_stop fuel c n hn0 hge]
      · rw [bubbleUpF_swap fuel c n hn0 hge, ih]
        simp

/-- `bubbleUp` only rearranges entries of the array. -/
theorem bubbleUpF_subset (fuel : ℕ) :
    ∀ (c : List α) (n : ℕ), n < c.length →
      ∀ y ∈ bubbleUpF s fuel c n, y ∈ c := by
  induction fuel with
  | zero => intro c n _ y hy; exact hy
  | succ fuel ih =>
    intro c n hn y hy
    by_cases hn0 : n = 0
    · rw [hn0, bubbleUpF_idx_zero] at hy; exact hy
    · by_cases hge :
        s (c.getD n default) ≥ s (c.getD ((n + 1) / 2 - 1) default)
      · rw [bubbleUpF_stop fuel c n hn0 hge] at hy; exact hy
      · rw [bubbleUpF_swap fuel c n hn0 hge] at hy
        have hpn : (n + 1) / 2 - 1 < c.length := by omega
        have hy2 := ih _ ((n + 1) / 2 - 1)
          (by simp only [List.length_set]; omega) y hy
        rcases List.mem_or_eq_of_mem_set hy2 with hy3 | rfl
        · rcases List.mem_or_eq_of_mem_set hy3 with hy4 | rfl
          · exact hy4
          · exact getD_mem c n hn
        · exact getD_mem c ((n + 1) / 2 - 1) hpn

/-- The root-minimality invariant carried by `bubbleUp`: if the root is a
lower bound of every entry except possibly the bubbled index, then after the
bubbling the root of the result is a lower bound of every entry. -/
theorem bubbleUpF_rootMin (fuel : ℕ) :
    ∀ (c : List α) (n : ℕ), n < fuel → n < c.length →
      (∀ i, i < c.length → i ≠ n →
        s (c.getD 0 default) ≤ s (c.getD i default)) →
      ∀ y ∈ bubbleUpF s fuel c n,
        s ((bubbleUpF s fuel c n).getD 0 default) ≤ s y := by
  induction fuel with
  | zero => intro c n hfu; omega
  | succ fuel ih =>
    intro c n hfu hn hroot y hy
    by_cases hn0 : n = 0
    · subst hn0
      rw [bubbleUpF_idx_zero] at hy ⊢
      obtain ⟨i, hi, rfl⟩ := List.mem_iff_getElem.1 hy
      rw [← List.getD_eq_getElem c default hi]
      by_cases hi0 : i = 0
      · subst hi0; exact le_refl _
      · exact hroot i hi hi0
    · by_cases hge :
        s (c.getD n default) ≥ s (c.getD ((n + 1) / 2 - 1) default)
      · rw [bubbleUpF_stop fuel c n hn0 hge] at hy ⊢
        obtain ⟨i, hi, rfl⟩ := List.mem_iff_getElem.1 hy
        rw [← List.getD_eq_getElem c default hi]
        by_cases hin : i = n
        · subst hin
          have hpar := hroot ((i + 1) / 2 - 1) (by omega) (by omega)
          exact le_trans hpar hge
        · exact hroot i hi hin
      · rw [bubbleUpF_swap fuel c n hn0 hge] at hy ⊢
        set parentN := (n + 1) / 2 - 1 with hpN
        have hplt : parentN < n := by omega
        have hpn : parentN < c.length := by omega
        set c2 := (c.set parentN (c.getD n default)).set n
          (c.getD parentN default) with hc2
        have hlen2 : c2.length = c.length := by simp [hc2]
        have hget0 : ∀ j, j < c.length → j ≠ parentN → j ≠ n →
            c2.getD j default = c.getD j default := by
          intro j hj hjp hjn
          rw [hc2, getD_set_ne _ n j _ (fun h => hjn h.symm) (by simpa using hj),
            getD_set_ne _ parentN j _ (fun h => hjp h.symm) hj]
        have hgetn : c2.getD n default = c.getD parentN default := by
          rw [hc2, getD_set_self _ n _ (by simpa using hn)]
        have hgetp : c2.getD parentN default = c.getD n default := by
          rw [hc2, getD_set_ne _ n parentN _ (by omega) (by simpa using hpn),
            getD_set_self _ parentN _ hpn]
        have hroot2 : ∀ i, i < c2.length → i ≠ parentN →
            s (c2.getD 0 default) ≤ s (c2.getD i default) := by
          intro i hi hip
          rw [hlen2] at hi
          push_neg at hge
          by_cases hp0 : parentN = 0
          · -- the element moves into the root slot; it undercuts everything
            have h02 : c2.getD 0 default = c.getD n default := by
              rw [← hp0]; exact hgetp
            rw [h02]
            by_cases hin : i = n
            · subst hin
              rw [hgetn]
              exact le_of_lt hge
            · rw [hget0 i hi hip hin]
              have hro : s (c.getD 0 default) ≤ s (c.getD i default) :=
                hroot i hi hin
              have hlt : s (c.getD n default) < s (c.getD 0 default) := by
                rw [← hp0]; exact hge
              linarith
          · -- the root slot is untouched
            have h02 : c2.getD 0 default = c.getD 0 default :=
              hget0 0 (by omega) (fun h => hp0 h.symm) (fun h => hn0 h.symm)
            rw [h02]
            by_cases hin : i = n
            · subst hin
              rw [hgetn]
              exact hroot parentN hpn (by omega)
            · rw [hget0 i hi hip hin]
              exact hroot i hi hin
        exact ih c2 parentN (by omega) (by rw [hlen2]; omega) hroot2 y hy

/-- Root-minimality: the root entry scores no higher than any entry. -/
def RootMin (s : α → ℚ) (c : List α) : Prop :=
  ∀ y ∈ c, s (c.getD 0 default) ≤ s y

/-- `push` preserves root-minimality. -/
theorem heapPush_rootMin (c : List α) (x : α) (hroot : RootMin s c) :
    RootMin s (heapPush s c x) := by
  cases c with
  | nil =>
    intro y hy
    simp only [heapPush, List.nil_append, List.length_nil] at hy ⊢
    rw [bubbleUpF_idx_zero] at hy ⊢
    simp only [List.mem_singleton] at hy
    subst hy
    simp
  | cons a l =>
    intro y hy
    have hn : (a :: l).length < ((a :: l) ++ [x]).length := by simp
    refine bubbleUpF_rootMin ((a :: l).length + 1) ((a :: l) ++ [x])
      (a :: l).length (by omega) hn ?_ y hy
    intro i hi hine
    have hlen : ((a :: l) ++ [x]).length = (a :: l).length + 1 := by simp
    have hi' : i < (a :: l).length := by omega
    rw [List.getD_append _ _ _ _ hi', List.getD_append _ _ _ _ (by simp)]
    exact hroot _ (getD_mem _ i hi')

/-- Any push-only heap is root-minimal. -/
theorem heapPushAll_rootMin (xs : List α) : RootMin s (heapPushAll s xs) := by
  have key : ∀ (acc : List α), RootMin s acc →
      RootMin s (xs.foldl (heapPush s) acc) := by
    induction xs with
    | nil => intro acc h; exact h
    | cons x rest ih =>
      intro acc h
      rw [List.foldl_cons]
      exact ih _ (heapPush_rootMin acc x h)
  exact key [] (by intro y hy; cases hy)

/-- On a root-minimal nonempty heap, `pop` returns an element of the heap
whose score is minimal among all stored elements. -/
theorem heapPop_min (c : List α) (hne : c ≠ []) (hroot : RootMin s c) :
    ∃ r c', heapPop s c = some (r, c') ∧ r ∈ c ∧ ∀ y ∈ c, s r ≤ s y := by
  cases c with
  | nil => exact absurd rfl hne
  | cons a l =>
    by_cases hr : 0 < ((a :: l).dropLast).length
    · refine ⟨a, sinkDownF s ((a :: l).dropLast).length
          (((a :: l).dropLast).set 0 ((a :: l).getLast (by simp))) 0, ?_,
        List.mem_cons_self a l, fun y hy => by simpa using hroot y hy⟩
      simp only [heapPop]
      rw [if_pos hr]
    · refine ⟨a, (a :: l).dropLast, ?_,
        List.mem_cons_self a l, fun y hy => by simpa using hroot y hy⟩
      simp only [heapPop]
      rw [if_neg hr]

end MinHeapLemmas

/-! ### Theorems: C10 (MinHeap pop minimality) -/

/-- **C10, counterexample.**  The claim asserts that `bubbleUp` and
`sinkDown` restore the min-heap ordering after every push and pop, so a pop
always returns a minimal stored element and the A* open set always expands a
lowest-f node.  `sinkDown`'s `swap === null` test is never true (`swap` is
initialised to `-1`), so the second child is compared against `child1Score`
instead of the element's own score, and the element can be swapped below a
*larger* child.

First conjunct: after pushes of `0, 1, 50, 70, 60, 55` (which build exactly
that array — each value at least its parent) a single pop leaves
`[1, 60, 50, 70, 55]`, where entry `55` (index 4) is below its parent `60` —
the min-heap ordering is not restored.

Second conjunct: in the sequence push 1, push 6, pop, push 2, push 4,
push 7, push 0, push 3, pop, push 5, pop, pop — all with the identity score —
the next pop returns `5` while `4` is still stored: a pop that does not
return a minimal element, as can happen among the interleaved pushes and pops
of the A* loop. -/
theorem minheap_counterexample :
    (¬ IsHeap (id : ℚ → ℚ)
        (((heapPop id (heapPushAll id [0, 1, 50, 70, 60, 55])).map
          Prod.snd).getD [])) ∧
    (let popRest := fun (c : List ℚ) => ((heapPop id c).map Prod.snd).getD []
     let t1 := heapPush id (popRest (heapPushAll id [1, 6])) 2
     let t2 := popRest (heapPush id (heapPush id (heapPush id
       (heapPush id t1 4) 7) 0) 3)
     let t3 := popRest (heapPush id t2 5)
     let t4 := popRest t3
     (heapPop id t4).map Prod.fst = some 5 ∧ (4 : ℚ) ∈ t4 ∧ (4 : ℚ) < 5) := by
  constructor
  · have hres :
        (((heapPop id (heapPushAll id [(0:ℚ), 1, 50, 70, 60, 55])).map
          Prod.snd).getD []) = [1, 60, 50, 70, 55] := by decide
    rw [hres]
    intro h
    have := h 4 (by norm_num) (by norm_num)
    norm_num at this
  · refine ⟨by decide, by decide, by norm_num⟩

/-- **C10, amended.**  For every sequence of `MinHeap.push` operations with
any score function, starting from the empty heap, a subsequent `MinHeap.pop`
does return an element whose score is minimal among all currently stored
elements — `bubbleUp` maintains the root as a global minimum after every
push.  However `sinkDown` does not always restore the min-heap ordering after
a pop (its second-child test compares against the wrong bound), so once pops
and pushes interleave — as they do in the A* loop — a later pop may return a
non-minimal element and A* may expand a node that is not lowest-f (see
`minheap_counterexample`). -/
theorem minheap_push_only_pop_min {α : Type} [Inhabited α] (s : α → ℚ)
    (xs : List α) (hne : heapPushAll s xs ≠ []) :
    ∃ r c', heapPop s (heapPushAll s xs) = some (r, c') ∧
      r ∈ heapPushAll s xs ∧ ∀ y ∈ heapPushAll s xs, s r ≤ s y :=
  heapPop_min (heapPushAll s xs) hne (heapPushAll_rootMin xs)

/-- Witness for `minheap_push_only_pop_min`: pushes of `3, 1, 2` with the
identity score; the pop returns `1`. -/
theorem minheap_push_only_pop_min_witness :
    (heapPushAll (id : ℚ → ℚ) [3, 1, 2] ≠ []) ∧
    ∃ r c', heapPop id (heapPushAll (id : ℚ → ℚ) [3, 1, 2]) = some (r, c') ∧
      r ∈ heapPushAll (id : ℚ → ℚ) [3, 1, 2] ∧
      ∀ y ∈ heapPushAll (id : ℚ → ℚ) [3, 1, 2], id r ≤ id y :=
  ⟨by decide, minheap_push_only_pop_min id [3, 1, 2] (by decide)⟩

/-! ## A* pathfinder over the hex grid

From `Pathfinder.findPath` (src/services/pathfinding.ts, lines 102–232).

The front end of `findPath` converts the two world points to axial hex
coordinates (`worldToHex`, lines 130–135: pointy-top fractional coordinates,
cube rounding, and an offset round-trip that is the identity).  That
conversion is irrational-valued float geometry whose only role is to pick the
start and end *cells*; the search itself — and everything claims C1 and C6
say — runs on the cells.  The embedding therefore takes `startHex`/`endHex`
(axial, `ℤ × ℤ`) as inputs, standing for `worldToHex(start)` /
`worldToHex(end)`.

A returned waypoint is the pixel center
`(gridSize·√3·(col + (row & 1)/2), gridSize·(3/2)·row)` of an offset cell —
injective in `(col, row)` for `gridSize > 0` — except that the last waypoint
is replaced by the exact requested end point (lines 183–193).  Waypoints are
therefore modelled as `center col row` or `endPoint`, and "waypoint is the
center of a WALL cell" is stated on the cell key.

In JavaScript, `row & 1` of a (possibly negative) integer is its
two's-complement low bit, which is `Int.emod row 2`. -/

/-- `TerrainType` (src/types.ts). -/
inductive TerrainType where
  | GROUND | WALL | WATER | FOREST
deriving DecidableEq, Repr

/-- A terrain map: cell key to terrain kind, absent keys meaning default
ground. -/
def TerrainMap : Type := ℤ → Option TerrainType

/-- `axialToOffset` (pathfinding.ts, lines 96–100):
`col = q + (r - (r & 1)) / 2`, `row = r` (the division is exact). -/
def axialToOffset (q r : ℤ) : ℤ × ℤ := (q + (r - r.emod 2) / 2, r)

/-- The cell key of an offset coordinate: `row * 5000 + col`
(pathfinding.ts, line 148). -/
def keyOfOffset (col row : ℤ) : ℤ := row * 5000 + col

/-- `getKey` (pathfinding.ts, lines 146–149). -/
def getKey (q r : ℤ) : ℤ :=
  keyOfOffset (axialToOffset q r).1 (axialToOffset q r).2

/-- The hex (cube) distance heuristic (pathfinding.ts, lines 142–144). -/
def hexHeuristic (aq ar bq br : ℤ) : ℚ :=
  (((aq - bq).natAbs + (ar - br).natAbs
      + ((-aq - ar) - (-bq - br)).natAbs : ℕ) : ℚ) / 2

/-- Search node (`HexNode`, pathfinding.ts, lines 156–162). -/
inductive HexNode where
  | mk (q r : ℤ) (g f : ℚ) (parent : Option HexNode)

instance : Inhabited HexNode := ⟨.mk 0 0 0 0 none⟩

/-- Field accessor `q`. -/
def HexNode.q : HexNode → ℤ | .mk q _ _ _ _ => q
/-- Field accessor `r`. -/
def HexNode.r : HexNode → ℤ | .mk _ r _ _ _ => r
/-- Field accessor `g`. -/
def HexNode.g : HexNode → ℚ | .mk _ _ g _ _ => g
/-- Field accessor `f` (the heap's score function, line 164). -/
def HexNode.f : HexNode → ℚ | .mk _ _ _ f _ => f

/-- The offset cells of a node's parent chain, from the node itself back to
the root — the cells whose centers the reconstruction loop (lines 180–189)
pushes. -/
def HexNode.cells : HexNode → List (ℤ × ℤ)
  | .mk q r _ _ none => [axialToOffset q r]
  | .mk q r _ _ (some p) => axialToOffset q r :: p.cells

/-- A returned waypoint: a hex-cell center, or the exact requested end point
substituted for the final waypoint. -/
inductive Waypoint where
  | center (col row : ℤ)
  | endPoint
deriving DecidableEq, Repr

/-- Path reconstruction (pathfinding.ts, lines 179–194): collect centers
from the goal node back to the root, drop the root's center (`path.pop()`),
reverse, and replace the last waypoint by the exact end point (pushing it if
the list is empty). -/
def reconstructPath (current : HexNode) : List Waypoint :=
  let path := current.cells.map fun c => Waypoint.center c.1 c.2
  let path2 := path.dropLast.reverse
  if path2.length > 0 then path2.dropLast ++ [Waypoint.endPoint]
  else [Waypoint.endPoint]

/-- The six axial neighbor directions (pathfinding.ts, lines 199–202). -/
def neighborDirs : List (ℤ × ℤ) :=
  [(1, 0), (1, -1), (0, -1), (-1, 0), (-1, 1), (0, 1)]

/-- The neighbor-expansion step of the loop body (lines 204–228): skip
closed cells and walls, compute the edge cost (forest 2, water 5, ground 1),
and push the neighbor node onto the open set. -/
def pushNeighbor (terrain : TerrainMap) (endQ endR : ℤ) (current : HexNode)
    (closed2 : List ℤ) (acc : List HexNode) (dir : ℤ × ℤ) : List HexNode :=
  let nQ := current.q + dir.1
  let nR := current.r + dir.2
  let nKey := getKey nQ nR
  if nKey ∈ closed2 then acc
  else if terrain nKey = some TerrainType.WALL then acc
  else
    let cost : ℚ := if terrain nKey = some TerrainType.FOREST then 2
      else if terrain nKey = some TerrainType.WATER then 5 else 1
    let gScore := current.g + cost
    heapPush HexNode.f acc
      (HexNode.mk nQ nR gScore (gScore + hexHeuristic nQ nR endQ endR)
        (some current))

/-- The A* main loop (pathfinding.ts, lines 171–229).  `fuel` is the number
of iterations the cap still allows (the source counts `iterations` up and
returns `null` once the pre-increment value exceeds 500, i.e. after 501
pops); the pair's second component counts the pops actually performed. -/
def astarLoop (terrain : TerrainMap) (endQ endR : ℤ) :
    ℕ → List HexNode → List ℤ → Option (List Waypoint) × ℕ
  | 0, _, _ => (none, 0)
  | fuel + 1, openSet, closedSet =>
    if openSet.length = 0 then (none, 0)
    else
      match heapPop HexNode.f openSet with
      | none => (none, 0)
      | some (current, openRest) =>
        if current.q = endQ ∧ current.r = endR then
          (some (reconstructPath current), 1)
        else
          let currentKey := getKey current.q current.r
          let closed2 := currentKey :: closedSet
          let open2 := neighborDirs.foldl
            (pushNeighbor terrain endQ endR current closed2) openRest
          let res := astarLoop terrain endQ endR fuel open2 closed2
          (res.1, res.2 + 1)

/-- `findPath` at the cell level (lines 151–231), also reporting the number
of node expansions: same-cell early return with the exact end point,
immediate rejection of a wall destination, then the capped A* loop seeded
with the root node (`g = 0`, `f = heuristic(start, end)`). -/
def findPathAux (terrain : TerrainMap) (startHex endHex : ℤ × ℤ) :
    Option (List Waypoint) × ℕ :=
  if startHex.1 = endHex.1 ∧ startHex.2 = endHex.2 then
    (some [Waypoint.endPoint], 0)
  else if terrain (getKey endHex.1 endHex.2) = some TerrainType.WALL then
    (none, 0)
  else
    let root := HexNode.mk startHex.1 startHex.2 0
      (hexHeuristic startHex.1 startHex.2 endHex.1 endHex.2) none
    astarLoop terrain endHex.1 endHex.2 501 (heapPush HexNode.f [] root) []

/-- `Pathfinder.findPath`, cell-level result. -/
def findPathHex (terrain : TerrainMap) (startHex endHex : ℤ × ℤ) :
    Option (List Waypoint) :=
  (findPathAux terrain startHex endHex).1

section AStarLemmas

/-- Helper: the index `sinkSwap` picks is always within the array. -/
theorem sinkSwap_lt {α : Type} [Inhabited α] {s : α → ℚ} {c : List α}
    {n sw : ℕ} (h : sinkSwap s c n = some sw) : sw < c.length := by
  simp only [sinkSwap] at h
  by_cases houter : (n + 1) * 2 < c.length ∧
      s (c.getD ((n + 1) * 2) default) <
        (if (n + 1) * 2 - 1 < c.length
         then s (c.getD ((n + 1) * 2 - 1) default) else 0)
  · rw [if_pos houter] at h
    cases Option.some.inj h
    exact houter.1
  · rw [if_neg houter] at h
    by_cases hinner : (n + 1) * 2 - 1 < c.length ∧
        s (c.getD ((n + 1) * 2 - 1) default) < s (c.getD n default)
    · rw [if_pos hinner] at h
      cases Option.some.inj h
      exact hinner.1
    · rw [if_neg hinner] at h
      exact absurd h (by simp)

/-- Helper: `sinkDown` only rearranges entries of the array. -/
theorem sinkDownF_subset {α : Type} [Inhabited α] {s : α → ℚ} (fuel : ℕ) :
    ∀ (c : List α) (n : ℕ), n < c.length →
      ∀ y ∈ sinkDownF s fuel c n, y ∈ c := by
  induction fuel with
  | zero => intro c n _ y hy; exact hy
  | succ fuel ih =>
    intro c n hn y hy
    cases hsw : sinkSwap s c n with
    | none =>
      simp only [sinkDownF, hsw] at hy
      exact hy
    | some sw =>
      simp only [sinkDownF, hsw] at hy
      have hswlt : sw < c.length := sinkSwap_lt hsw
      have hy2 := ih _ sw (by simp only [List.length_set]; exact hswlt) y hy
      rcases List.mem_or_eq_of_mem_set hy2 with hy3 | rfl
      · rcases List.mem_or_eq_of_mem_set hy3 with hy4 | rfl
        · exact hy4
        · exact getD_mem c sw hswlt
      · exact getD_mem c n hn

/-- Helper: `push` only adds the pushed element. -/
theorem mem_heapPush {α : Type} [Inhabited α] {s : α → ℚ} {c : List α}
    {x y : α} (hy : y ∈ heapPush s c x) : y ∈ c ∨ y = x := by
  have := bubbleUpF_subset (c.length + 1) (c ++ [x]) c.length (by simp) y hy
  rcases List.mem_append.1 this with h | h
  · exact Or.inl h
  · exact Or.inr (List.mem_singleton.1 h)

/-- Helper: `pop` returns a stored element and only rearranges the rest. -/
theorem heapPop_subset {α : Type} [Inhabited α] {s : α → ℚ} {c c' : List α}
    {r : α} (h : heapPop s c = some (r, c')) :
    r ∈ c ∧ ∀ y ∈ c', y ∈ c := by
  cases c with
  | nil => exact absurd h (by simp [heapPop])
  | cons a l =>
    simp only [heapPop] at h
    have hsub : ∀ y ∈ (a :: l).dropLast.set 0 ((a :: l).getLast (by simp)),
        y ∈ (a :: l) := by
      intro y hy
      rcases List.mem_or_eq_of_mem_set hy with hy2 | rfl
      · exact List.dropLast_subset _ hy2
      · exact List.getLast_mem _
    by_cases hr : 0 < ((a :: l).dropLast).length
    · rw [if_pos hr] at h
      obtain ⟨hra, hc'⟩ := Prod.mk.injEq .. ▸ Option.some.inj h
      constructor
      · rw [← hra]; exact List.mem_cons_self a l
      · intro y hy
        rw [← hc'] at hy
        have := sinkDownF_subset _ _ 0 (by simpa using hr) y hy
        exact hsub y this
    · rw [if_neg hr] at h
      obtain ⟨hra, hc'⟩ := Prod.mk.injEq .. ▸ Option.some.inj h
      constructor
      · rw [← hra]; exact List.mem_cons_self a l
      · intro y hy
        rw [← hc'] at hy
        exact List.dropLast_subset _ hy

/-- Helper: the parent chain is never empty. -/
theorem HexNode.cells_ne_nil (n : HexNode) : n.cells ≠ [] := by
  cases n with
  | mk q r g f parent =>
    cases parent <;> simp [HexNode.cells]

/-- A node avoids walls when no cell of its parent chain except the root
(the start cell, whose center the reconstruction drops) is a wall. -/
def nodeAvoids (terrain : TerrainMap) (n : HexNode) : Prop :=
  ∀ c ∈ n.cells.dropLast, terrain (keyOfOffset c.1 c.2) ≠ some TerrainType.WALL

/-- Helper: every cell center on a reconstructed path of a wall-avoiding
node is a non-wall cell. -/
theorem reconstruct_avoids (terrain : TerrainMap) (n : HexNode)
    (hn : nodeAvoids terrain n) (col row : ℤ)
    (hmem : Waypoint.center col row ∈ reconstructPath n) :
    terrain (keyOfOffset col row) ≠ some TerrainType.WALL := by
  have hcell : (col, row) ∈ n.cells.dropLast := by
    unfold reconstructPath at hmem
    by_cases hlen :
        ((n.cells.map fun c => Waypoint.center c.1 c.2).dropLast.reverse).length > 0
    · rw [if_pos hlen] at hmem
      rcases List.mem_append.1 hmem with hmem2 | hmem2
      · have hmem3 := List.dropLast_subset _ hmem2
        rw [List.mem_reverse] at hmem3
        rw [← List.map_dropLast] at hmem3
        obtain ⟨c, hc, hceq⟩ := List.mem_map.1 hmem3
        obtain ⟨h1, h2⟩ := Waypoint.center.injEq .. ▸ hceq
        rw [← h1, ← h2]
        exact (Prod.mk.eta ▸ hc)
      · simp at hmem2
    · rw [if_neg hlen] at hmem
      simp at hmem
  exact hn (col, row) hcell

/-- Helper: the neighbor-expansion fold preserves wall avoidance of every
open-set node. -/
theorem foldl_pushNeighbor_avoids (terrain : TerrainMap) (endQ endR : ℤ)
    (current : HexNode) (closed2 : List ℤ)
    (hcur : nodeAvoids terrain current) (dirs : List (ℤ × ℤ)) :
    ∀ (acc : List HexNode), (∀ nd ∈ acc, nodeAvoids terrain nd) →
      ∀ nd ∈ dirs.foldl (pushNeighbor terrain endQ endR current closed2) acc,
        nodeAvoids terrain nd := by
  induction dirs with
  | nil => intro acc hacc nd hnd; exact hacc nd hnd
  | cons dir rest ih =>
    intro acc hacc nd hnd
    rw [List.foldl_cons] at hnd
    refine ih _ ?_ nd hnd
    intro nd2 hnd2
    unfold pushNeighbor at hnd2
    by_cases hcl : getKey (current.q + dir.1) (current.r + dir.2) ∈ closed2
    · rw [if_pos hcl] at hnd2
      exact hacc nd2 hnd2
    · rw [if_neg hcl] at hnd2
      by_cases hw : terrain (getKey (current.q + dir.1) (current.r + dir.2))
          = some TerrainType.WALL
      · rw [if_pos hw] at hnd2
        exact hacc nd2 hnd2
      · rw [if_neg hw] at hnd2
        rcases mem_heapPush hnd2 with h | rfl
        · exact hacc nd2 h
        · -- the freshly pushed neighbor node
          intro c hc
          have hcells : (HexNode.mk (current.q + dir.1) (current.r + dir.2)
              (current.g + (if terrain (getKey (current.q + dir.1)
                  (current.r + dir.2)) = some TerrainType.FOREST then 2
                else if terrain (getKey (current.q + dir.1)
                  (current.r + dir.2)) = some TerrainType.WATER then 5 else 1))
              (current.g + (if terrain (getKey (current.q + dir.1)
                  (current.r + dir.2)) = some TerrainType.FOREST then 2
                else if terrain (getKey (current.q + dir.1)
                  (current.r + dir.2)) = some TerrainType.WATER then 5 else 1)
                + hexHeuristic (current.q + dir.1) (current.r + dir.2) endQ endR)
              (some current)).cells
              = axialToOffset (current.q + dir.1) (current.r + dir.2)
                :: current.cells := rfl
          rw [hcells, List.dropLast_cons_of_ne_nil (HexNode.cells_ne_nil current)]
            at hc
          rcases List.mem_cons.1 hc with rfl | hc2
          · -- the neighbor cell itself: guarded non-wall
            exact hw
          · exact hcur c hc2

/-- The A* loop invariant: if every open-set node avoids walls, every cell
center on any returned waypoint list is a non-wall cell. -/
theorem astarLoop_avoids (terrain : TerrainMap) (endQ endR : ℤ) (fuel : ℕ) :
    ∀ (openSet : List HexNode) (closedSet : List ℤ),
      (∀ nd ∈ openSet, nodeAvoids terrain nd) →
      ∀ ws, (astarLoop terrain endQ endR fuel openSet closedSet).1 = some ws →
        ∀ col row, Waypoint.center col row ∈ ws →
          terrain (keyOfOffset col row) ≠ some TerrainType.WALL := by
  induction fuel with
  | zero =>
    intro openSet closedSet _ ws hws
    exact absurd hws (by simp [astarLoop])
  | succ fuel ih =>
    intro openSet closedSet hopen ws hws col row hmem
    simp only [astarLoop] at hws
    by_cases hlen : openSet.length = 0
    · rw [if_pos hlen] at hws
      exact absurd hws (by simp)
    · rw [if_neg hlen] at hws
      cases hpop : heapPop HexNode.f openSet with
      | none =>
        simp only [hpop] at hws
        exact Option.noConfusion hws
      | some pr =>
        obtain ⟨current, openRest⟩ := pr
        simp only [hpop] at hws
        obtain ⟨hcurmem, hrest⟩ := heapPop_subset hpop
        by_cases hgoal : current.q = endQ ∧ current.r = endR
        · rw [if_pos hgoal] at hws
          simp only [Option.some.injEq] at hws
          subst hws
          exact reconstruct_avoids terrain current (hopen current hcurmem)
            col row hmem
        · rw [if_neg hgoal] at hws
          simp only at hws
          refine ih _ _ ?_ ws hws col row hmem
          exact foldl_pushNeighbor_avoids terrain endQ endR current _
            (hopen current hcurmem) neighborDirs openRest
            (fun nd hnd => hopen nd (hrest nd hnd))

/-! ### Theorems: C1 (walls rejected and never crossed) -/

/-- **C1, counterexample.**  The claim requires `findPath` to return `none`
whenever the destination cell is a wall.  But the same-cell early return
(line 151) runs *before* the wall check (line 154): with start and end in the
same cell — here cell `(0,0)`, key `0`, marked WALL — `findPath` returns the
one-waypoint path `[end]` instead of `none`. -/
theorem findPath_wall_destination_counterexample :
    (let terrain : TerrainMap :=
      fun k => if k = 0 then some TerrainType.WALL else none
     terrain (getKey 0 0) = some TerrainType.WALL ∧
     findPathHex terrain (0, 0) (0, 0) = some [Waypoint.endPoint]) := by
  constructor
  · decide
  · decide

/-- **C1, amended.**  If the destination cell is a wall and the start cell
differs from it, `findPath` returns `none` (when start and end share one wall
cell, the same-cell early return yields `[end]` instead, see
`findPath_wall_destination_counterexample`).  Moreover, whenever a waypoint
list is returned, no waypoint on it except the substituted exact end point is
the center of a WALL cell: wall cells are never expanded and never crossed by
a returned path. -/
theorem findPath_wall_avoidance (terrain : TerrainMap)
    (startHex endHex : ℤ × ℤ) :
    (terrain (getKey endHex.1 endHex.2) = some TerrainType.WALL →
      ¬(startHex.1 = endHex.1 ∧ startHex.2 = endHex.2) →
      findPathHex terrain startHex endHex = none) ∧
    (∀ ws, findPathHex terrain startHex endHex = some ws →
      ∀ col row, Waypoint.center col row ∈ ws →
        terrain (keyOfOffset col row) ≠ some TerrainType.WALL) := by
  constructor
  · intro hwall hne
    unfold findPathHex findPathAux
    rw [if_neg hne, if_pos hwall]
  · intro ws hws col row hmem
    unfold findPathHex findPathAux at hws
    by_cases heq : startHex.1 = endHex.1 ∧ startHex.2 = endHex.2
    · rw [if_pos heq] at hws
      simp only [Option.some.injEq] at hws
      subst hws
      simp at hmem
    · rw [if_neg heq] at hws
      by_cases hwall : terrain (getKey endHex.1 endHex.2)
          = some TerrainType.WALL
      · rw [if_pos hwall] at hws
        exact absurd hws (by simp)
      · rw [if_neg hwall] at hws
        simp only at hws
        refine astarLoop_avoids terrain endHex.1 endHex.2 501 _ [] ?_
          ws hws col row hmem
        intro nd hnd
        rcases mem_heapPush hnd with h | rfl
        · simp at h
        · -- the root node: its only cell (the start cell) is dropped
          intro c hc
          simp [HexNode.cells] at hc

/-- Witness for `findPath_wall_avoidance`.  First conjunct at a concrete
input: end cell `(0,5)` (axial), whose key is `25002`, is a wall and differs
from the start cell `(0,0)`, so the path is `none`.  Second conjunct at a
concrete input: with no wall, the same-cell call returns
`some [Waypoint.endPoint]`, and the conclusion holds for that list. -/
theorem findPath_wall_avoidance_witness :
    (let terrain : TerrainMap :=
      fun k => if k = 25002 then some TerrainType.WALL else none
     terrain (getKey 0 5) = some TerrainType.WALL ∧
     ¬((0 : ℤ) = 0 ∧ (0 : ℤ) = 5) ∧
     findPathHex terrain ((0 : ℤ), (0 : ℤ)) ((0 : ℤ), (5 : ℤ)) = none) ∧
    ((fun _ => none : TerrainMap) (getKey 0 0) ≠ some TerrainType.WALL ∧
     findPathHex (fun _ => none) ((0 : ℤ), (0 : ℤ)) ((0 : ℤ), (0 : ℤ))
        = some [Waypoint.endPoint] ∧
     ∀ col row,
       Waypoint.center col row ∈ [Waypoint.endPoint] →
       (fun _ => none : TerrainMap) (keyOfOffset col row)
          ≠ some TerrainType.WALL) := by
  constructor
  · refine ⟨by decide, by decide, ?_⟩
    exact (findPath_wall_avoidance _ (0, 0) (0, 5)).1 (by decide) (by decide)
  · refine ⟨by decide, by decide, ?_⟩
    exact (findPath_wall_avoidance (fun _ => none) (0, 0) (0, 0)).2
      [Waypoint.endPoint] (by decide)

/-! ### Theorems: C6 (iteration cap) -/

/-- Helper: the loop performs at most `fuel` pops. -/
theorem astarLoop_count_le (terrain : TerrainMap) (endQ endR : ℤ)
    (fuel : ℕ) :
    ∀ (openSet : List HexNode) (closedSet : List ℤ),
      (astarLoop terrain endQ endR fuel openSet closedSet).2 ≤ fuel := by
  induction fuel with
  | zero => intro o c; exact le_refl 0
  | succ fuel ih =>
    intro openSet closedSet
    simp only [astarLoop]
    by_cases hlen : openSet.length = 0
    · rw [if_pos hlen]; exact Nat.zero_le _
    · rw [if_neg hlen]
      cases hpop : heapPop HexNode.f openSet with
      | none =>
        simp only [hpop]
        exact Nat.zero_le _
      | some pr =>
        obtain ⟨current, openRest⟩ := pr
        simp only [hpop]
        by_cases hgoal : current.q = endQ ∧ current.r = endR
        · rw [if_pos hgoal]; omega
        · rw [if_neg hgoal]
          simp only
          have := ih (neighborDirs.foldl
            (pushNeighbor terrain endQ endR current
              (getKey current.q current.r :: closedSet)) openRest)
            (getKey current.q current.r :: closedSet)
          omega

/-- **C6.** `Pathfinder.findPath` terminates on every input: the A* main
loop performs at most 501 node expansions — the call made by `findPath`
reports an expansion count `≤ 501` — and once the iteration budget is
exhausted the loop returns `none` regardless of the terrain map or the
chosen start and end cells. -/
theorem findPath_iteration_cap (terrain : TerrainMap)
    (startHex endHex : ℤ × ℤ) :
    (findPathAux terrain startHex endHex).2 ≤ 501 ∧
    (∀ (openSet : List HexNode) (closedSet : List ℤ),
      (astarLoop terrain endHex.1 endHex.2 0 openSet closedSet).1 = none) := by
  constructor
  · unfold findPathAux
    by_cases heq : startHex.1 = endHex.1 ∧ startHex.2 = endHex.2
    · rw [if_pos heq]; norm_num
    · rw [if_neg heq]
      by_cases hwall : terrain (getKey endHex.1 endHex.2)
          = some TerrainType.WALL
      · rw [if_pos hwall]; norm_num
      · rw [if_neg hwall]
        exact astarLoop_count_le terrain endHex.1 endHex.2 501 _ []
  · intro openSet closedSet
    rfl

end AStarLemmas
